import Mathlib

/-!
Verification of the core scalar functions of the datafusion functions package
(null-aware conditional selection, cross-argument ordering, and structural
construction/access), as registered in
src/datafusion/functions/src/core/mod.rs.

The repository fragment under src/ holds the registration scaffolding
(make_udf_function!, expr_fn builders, functions()); the per-function
evaluator bodies live in sibling files that are not part of the fragment, so
the row-level evaluators below are modelled from the specification and each
such definition says so in its doc comment.  The expression-builder layer
(expr_fn) and the functions() registry list are embedded directly from the
source.
-/

namespace DataFusionCore

/-- A value column of a columnar batch: one optional value per row.
`none` at a row means the validity bit of that row is unset (the value is
null); `some v` means the row is valid and holds `v`. -/
abbrev Col (α : Type) := List (Option α)

/-- Row `r` of a list of sibling argument columns: the per-argument optional
values at that row (out-of-range rows read as invalid; the well-formedness
hypotheses of the theorems rule that out). -/
def rowAt {α : Type} (cols : List (Col α)) (r : Nat) : List (Option α) :=
  cols.map (fun c => c.getD r none)

/-- Batch-time evaluation of a per-row kernel `f` over `R` rows of the
argument columns: one output row per input row, produced by a pure map. -/
def evalRows {α β : Type} (f : List (Option α) → Option β)
    (cols : List (Col α)) (R : Nat) : Col β :=
  (List.range R).map (fun r => f (rowAt cols r))

/-- Modelled from the spec: the row kernel of `coalesce` (coalesce.rs is not
part of the fragment).  Scan the argument values of one row left to right and
return the first valid one; the row is invalid only when every argument is
invalid at it. -/
def coalesceRow {α : Type} : List (Option α) → Option α
  | [] => none
  | none :: rest => coalesceRow rest
  | some v :: _ => some v

/-- Batch-time `coalesce` over argument columns. -/
def coalesceEval {α : Type} (cols : List (Col α)) (R : Nat) : Col α :=
  evalRows coalesceRow cols R

lemma coalesceRow_eq_none_iff {α : Type} (args : List (Option α)) :
    coalesceRow args = none ↔ ∀ x ∈ args, x = none := by
  induction args with
  | nil => simp [coalesceRow]
  | cons hd tl ih =>
    cases hd with
    | none => simpa [coalesceRow] using ih
    | some v => simp [coalesceRow]

lemma coalesceRow_eq_some_iff {α : Type} (args : List (Option α)) (v : α) :
    coalesceRow args = some v ↔
      ∃ i : Nat, args[i]? = some (some v) ∧ ∀ j < i, args[j]? = some none := by
  induction args with
  | nil => simp [coalesceRow]
  | cons hd tl ih =>
    cases hd with
    | none =>
      simp only [coalesceRow]
      rw [ih]
      constructor
      · rintro ⟨i, hi, hj⟩
        refine ⟨i + 1, by simpa using hi, ?_⟩
        intro j hj1
        cases j with
        | zero => simp
        | succ j =>
          have := hj j (Nat.lt_of_succ_lt_succ hj1)
          simpa using this
      · rintro ⟨i, hi, hj⟩
        cases i with
        | zero => simp at hi
        | succ i =>
          refine ⟨i, by simpa using hi, ?_⟩
          intro j hj1
          have := hj (j + 1) (Nat.succ_lt_succ hj1)
          simpa using this
    | some w =>
      simp only [coalesceRow]
      constructor
      · rintro h
        exact ⟨0, by simpa using h, by simp⟩
      · rintro ⟨i, hi, hj⟩
        cases i with
        | zero => simpa using hi
        | succ i =>
          have := hj 0 (Nat.succ_pos i)
          simp at this

/-- C1: for every row, coalesce over N ≥ 1 arguments outputs the value of the
first argument (left to right) whose validity bit is set at that row, and the
output is invalid exactly when all arguments are invalid there; batch-time
evaluation applies this row kernel at every row index below the row count. -/
theorem coalesce_first_valid {α : Type} (args : List (Option α))
    (hN : 1 ≤ args.length) :
    (coalesceRow args = none ↔ ∀ x ∈ args, x = none) ∧
    (∀ v, coalesceRow args = some v ↔
      ∃ i : Nat, args[i]? = some (some v) ∧ ∀ j < i, args[j]? = some none) ∧
    (∀ (cols : List (Col α)) (R r : Nat), r < R →
      (coalesceEval cols R)[r]? = some (coalesceRow (rowAt cols r))) := by
  refine ⟨coalesceRow_eq_none_iff args,
    fun v => coalesceRow_eq_some_iff args v, ?_⟩
  intro cols R r hr
  simp [coalesceEval, evalRows, List.getElem?_map, List.getElem?_range, hr]

/-- Witness for C1 at the concrete scenario of the spec:
coalesce(NULL, NULL, 5) over one row yields 5, valid. -/
theorem coalesce_first_valid_witness :
    coalesceRow [none, none, some (5 : Int)] = some 5 :=
  ((coalesce_first_valid [none, none, some (5 : Int)] (by decide)).2.1 5).mpr
    ⟨2, by decide, by decide⟩

/-- Modelled from the spec: the row kernel of `nullif` (nullif.rs is not part
of the fragment).  The output is invalid at rows where the two arguments are
equal under value equality with the SQL null-comparison rule (null never
equals anything), and is the first argument, validity preserved, otherwise. -/
def nullifRow {α : Type} [DecidableEq α] (a b : Option α) : Option α :=
  match a, b with
  | some x, some y => if x = y then none else some x
  | a, _ => a

/-- Batch-time `nullif` over its two argument columns. -/
def nullifEval {α : Type} [DecidableEq α] (a b : Col α) (R : Nat) : Col α :=
  (List.range R).map (fun r => nullifRow (a.getD r none) (b.getD r none))

/-- Modelled from the spec: the row kernel of `nvl` (nvl.rs is not part of the
fragment).  The output is the second argument where the first is invalid, and
the first argument otherwise. -/
def nvlRow {α : Type} (a b : Option α) : Option α :=
  match a with
  | some x => some x
  | none => b

/-- Batch-time `nvl` over its two argument columns. -/
def nvlEval {α : Type} (a b : Col α) (R : Nat) : Col α :=
  (List.range R).map (fun r => nvlRow (a.getD r none) (b.getD r none))

/-- Modelled from the spec: the row kernel of `nvl2` (nvl2.rs is not part of
the fragment).  The output is the second argument at rows where the first is
valid and the third argument otherwise; the chosen branch passes through with
its own validity. -/
def nvl2Row {α β : Type} (a : Option α) (b c : Option β) : Option β :=
  match a with
  | some _ => b
  | none => c

/-- Batch-time `nvl2` over its three argument columns (the first may have a
different type from the two branches, as only its nullness is examined). -/
def nvl2Eval {α β : Type} (a : Col α) (b c : Col β) (R : Nat) : Col β :=
  (List.range R).map (fun r => nvl2Row (a.getD r none) (b.getD r none) (c.getD r none))

/-- C4: nullif(a1, a2) is invalid exactly at rows where the two values are
equal under SQL value equality (a row with a null on either side is never
nulled out by the rule), is a1 with its original validity otherwise, and in
particular nullif(a, a) is null wherever a is valid and passes a through
wherever a is null. -/
theorem nullif_spec {α : Type} [DecidableEq α] (a b : Option α) :
    (nullifRow a b = none ↔ (a = none ∨ ∃ x, a = some x ∧ b = some x)) ∧
    ((¬ ∃ x, a = some x ∧ b = some x) → nullifRow a b = a) ∧
    (∀ x, a = some x → nullifRow a a = none) ∧
    (a = none → nullifRow a a = a) := by
  refine ⟨?_, ?_, ?_, ?_⟩
  · cases a with
    | none => simp [nullifRow]
    | some x =>
      cases b with
      | none => simp [nullifRow]
      | some y =>
        by_cases h : x = y <;> simp [nullifRow, h, eq_comm]
  · intro h
    cases a with
    | none => rfl
    | some x =>
      cases b with
      | none => rfl
      | some y =>
        have hxy : x ≠ y := fun he => h ⟨x, rfl, by rw [he]⟩
        simp [nullifRow, hxy]
  · intro x hx
    subst hx
    simp [nullifRow]
  · intro hx
    subst hx
    rfl

/-- Witness for C4 at the concrete scenario of the spec: nullif(3, 3) is null
and nullif(3, 4) is 3. -/
theorem nullif_spec_witness :
    nullifRow (some (3 : Int)) (some 3) = none ∧
    nullifRow (some (3 : Int)) (some 4) = some 3 :=
  ⟨(nullif_spec (some (3 : Int)) (some 3)).1.mpr (Or.inr ⟨3, rfl, rfl⟩),
   (nullif_spec (some (3 : Int)) (some 4)).2.1 (by rintro ⟨x, hx, hy⟩; simp at hx hy; omega)⟩

/-- C5: nvl2(a1, a2, a3) outputs a2 at rows where a1 is valid and a3 at rows
where a1 is invalid; the branch decision depends only on the nullness of a1,
and the nullness of the chosen branch passes through to the output. -/
theorem nvl2_spec {α β : Type} (a : Option α) (b c : Option β) :
    (∀ x, a = some x → nvl2Row a b c = b) ∧
    (a = none → nvl2Row a b c = c) := by
  constructor
  · intro x hx; subst hx; rfl
  · intro hx; subst hx; rfl

/-- Witness for C5 at the concrete scenario of the spec: nvl2(NULL, 1, 2) is 2
and nvl2(10, 1, 2) is 1 (both branches taken with valid outputs). -/
theorem nvl2_spec_witness :
    nvl2Row (none : Option Int) (some (1 : Int)) (some 2) = some 2 ∧
    nvl2Row (some (10 : Int)) (some (1 : Int)) (some 2) = some 1 :=
  ⟨(nvl2_spec (none : Option Int) (some (1 : Int)) (some 2)).2 rfl,
   (nvl2_spec (some (10 : Int)) (some (1 : Int)) (some 2)).1 10 rfl⟩

/-- C6: nvl(a, b) is row-wise identical to coalesce(a, b): the whole output
columns agree, values and validity alike, for every row count and every pair
of input columns. -/
theorem nvl_is_coalesce {α : Type} (ca cb : Col α) (R : Nat) :
    nvlEval ca cb R = coalesceEval [ca, cb] R ∧
    ∀ a b : Option α, nvlRow a b = coalesceRow [a, b] := by
  have hrow : ∀ a b : Option α, nvlRow a b = coalesceRow [a, b] := by
    intro a b
    cases a with
    | none => cases b <;> rfl
    | some x => rfl
  refine ⟨?_, hrow⟩
  unfold nvlEval coalesceEval evalRows rowAt
  refine List.map_congr_left ?_
  intro r _
  simpa using hrow (ca.getD r none) (cb.getD r none)

/-- Modelled from the spec: one step of the running-extreme fold shared by
greatest and least (greatest_least_utils.rs is not part of the fragment),
instantiated for greatest.  Invalid entries are skipped; the accumulator is
replaced only on a strictly greater value, so equal extremes keep the first
occurrence in argument order. -/
def greatestStep {α : Type} [LinearOrder α] (acc x : Option α) : Option α :=
  match x with
  | none => acc
  | some b =>
    match acc with
    | none => some b
    | some a => if a < b then some b else some a

/-- Modelled from the spec: the row kernel of `greatest` (greatest.rs is not
part of the fragment): a running-extreme fold over the argument values of one
row with SQL null-skipping. -/
def greatestRow {α : Type} [LinearOrder α] (args : List (Option α)) : Option α :=
  args.foldl greatestStep none

/-- Modelled from the spec: the fold step for least, differing from
`greatestStep` only in the direction of the comparison. -/
def leastStep {α : Type} [LinearOrder α] (acc x : Option α) : Option α :=
  match x with
  | none => acc
  | some b =>
    match acc with
    | none => some b
    | some a => if b < a then some b else some a

/-- Modelled from the spec: the row kernel of `least` (least.rs is not part of
the fragment). -/
def leastRow {α : Type} [LinearOrder α] (args : List (Option α)) : Option α :=
  args.foldl leastStep none

/-- Batch-time `greatest` over argument columns. -/
def greatestEval {α : Type} [LinearOrder α] (cols : List (Col α)) (R : Nat) : Col α :=
  evalRows greatestRow cols R

/-- Batch-time `least` over argument columns. -/
def leastEval {α : Type} [LinearOrder α] (cols : List (Col α)) (R : Nat) : Col α :=
  evalRows leastRow cols R

lemma greatest_fold_none_iff {α : Type} [LinearOrder α]
    (xs : List (Option α)) (acc : Option α) :
    xs.foldl greatestStep acc = none ↔ acc = none ∧ ∀ x ∈ xs, x = none := by
  induction xs generalizing acc with
  | nil => simp
  | cons hd tl ih =>
    cases hd with
    | none => simpa [greatestStep] using ih acc
    | some b =>
      rw [List.foldl_cons, ih]
      cases acc with
      | none => simp [greatestStep]
      | some a => by_cases h : a < b <;> simp [greatestStep, h]

lemma greatest_fold_some {α : Type} [LinearOrder α]
    (xs : List (Option α)) (a : α) :
    ∃ m, xs.foldl greatestStep (some a) = some m ∧
      (m = a ∨ some m ∈ xs) ∧ a ≤ m ∧ ∀ b, some b ∈ xs → b ≤ m := by
  induction xs generalizing a with
  | nil => exact ⟨a, rfl, Or.inl rfl, le_refl a, by simp⟩
  | cons hd tl ih =>
    cases hd with
    | none =>
      obtain ⟨m, hm, hmem, hle, hub⟩ := ih a
      refine ⟨m, by simpa [greatestStep] using hm, ?_, hle, ?_⟩
      · rcases hmem with h | h
        · exact Or.inl h
        · exact Or.inr (List.mem_cons_of_mem _ h)
      · intro b hb
        rcases List.mem_cons.mp hb with h | h
        · cases h
        · exact hub b h
    | some c =>
      by_cases hac : a < c
      · obtain ⟨m, hm, hmem, hle, hub⟩ := ih c
        refine ⟨m, by simpa [greatestStep, hac] using hm, ?_, le_of_lt (lt_of_lt_of_le hac hle), ?_⟩
        · rcases hmem with h | h
          · exact Or.inr (by simp [h])
          · exact Or.inr (List.mem_cons_of_mem _ h)
        · intro b hb
          rcases List.mem_cons.mp hb with h | h
          · rcases Option.some.inj h with rfl
            exact hle
          · exact hub b h
      · obtain ⟨m, hm, hmem, hle, hub⟩ := ih a
        refine ⟨m, by simpa [greatestStep, hac] using hm, ?_, hle, ?_⟩
        · rcases hmem with h | h
          · exact Or.inl h
          · exact Or.inr (List.mem_cons_of_mem _ h)
        · intro b hb
          rcases List.mem_cons.mp hb with h | h
          · rcases Option.some.inj h with rfl
            exact le_trans (not_lt.mp hac) hle
          · exact hub b h

lemma greatestRow_some_max {α : Type} [LinearOrder α]
    (args : List (Option α)) (m : α) (hm : greatestRow args = some m) :
    some m ∈ args ∧ ∀ b, some b ∈ args → b ≤ m := by
  induction args with
  | nil => cases hm
  | cons hd tl ih =>
    cases hd with
    | none =>
      have hm' : greatestRow tl = some m := by simpa [greatestRow, greatestStep] using hm
      obtain ⟨hmem, hub⟩ := ih hm'
      refine ⟨List.mem_cons_of_mem _ hmem, ?_⟩
      intro b hb
      rcases List.mem_cons.mp hb with h | h
      · cases h
      · exact hub b h
    | some c =>
      have hm' : tl.foldl greatestStep (some c) = some m := by
        simpa [greatestRow, greatestStep] using hm
      obtain ⟨m', hm'', hmem, hle, hub⟩ := greatest_fold_some tl c
      rw [hm'] at hm''
      rcases Option.some.inj hm'' with rfl
      constructor
      · rcases hmem with h | h
        · simp [h]
        · exact List.mem_cons_of_mem _ h
      · intro b hb
        rcases List.mem_cons.mp hb with h | h
        · rcases Option.some.inj h with rfl
          exact hle
        · exact hub b h

lemma least_fold_none_iff {α : Type} [LinearOrder α]
    (xs : List (Option α)) (acc : Option α) :
    xs.foldl leastStep acc = none ↔ acc = none ∧ ∀ x ∈ xs, x = none := by
  induction xs generalizing acc with
  | nil => simp
  | cons hd tl ih =>
    cases hd with
    | none => simpa [leastStep] using ih acc
    | some b =>
      rw [List.foldl_cons, ih]
      cases acc with
      | none => simp [leastStep]
      | some a => by_cases h : b < a <;> simp [leastStep, h]

lemma least_fold_some {α : Type} [LinearOrder α]
    (xs : List (Option α)) (a : α) :
    ∃ m, xs.foldl leastStep (some a) = some m ∧
      (m = a ∨ some m ∈ xs) ∧ m ≤ a ∧ ∀ b, some b ∈ xs → m ≤ b := by
  induction xs generalizing a with
  | nil => exact ⟨a, rfl, Or.inl rfl, le_refl a, by simp⟩
  | cons hd tl ih =>
    cases hd with
    | none =>
      obtain ⟨m, hm, hmem, hle, hlb⟩ := ih a
      refine ⟨m, by simpa [leastStep] using hm, ?_, hle, ?_⟩
      · rcases hmem with h | h
        · exact Or.inl h
        · exact Or.inr (List.mem_cons_of_mem _ h)
      · intro b hb
        rcases List.mem_cons.mp hb with h | h
        · cases h
        · exact hlb b h
    | some c =>
      by_cases hca : c < a
      · obtain ⟨m, hm, hmem, hle, hlb⟩ := ih c
        refine ⟨m, by simpa [leastStep, hca] using hm, ?_, le_of_lt (lt_of_le_of_lt hle hca), ?_⟩
        · rcases hmem with h | h
          · exact Or.inr (by simp [h])
          · exact Or.inr (List.mem_cons_of_mem _ h)
        · intro b hb
          rcases List.mem_cons.mp hb with h | h
          · rcases Option.some.inj h with rfl
            exact hle
          · exact hlb b h
      · obtain ⟨m, hm, hmem, hle, hlb⟩ := ih a
        refine ⟨m, by simpa [leastStep, hca] using hm, ?_, hle, ?_⟩
        · rcases hmem with h | h
          · exact Or.inl h
          · exact Or.inr (List.mem_cons_of_mem _ h)
        · intro b hb
          rcases List.mem_cons.mp hb with h | h
          · rcases Option.some.inj h with rfl
            exact le_trans hle (not_lt.mp hca)
          · exact hlb b h

lemma leastRow_some_min {α : Type} [LinearOrder α]
    (args : List (Option α)) (m : α) (hm : leastRow args = some m) :
    some m ∈ args ∧ ∀ b, some b ∈ args → m ≤ b := by
  induction args with
  | nil => cases hm
  | cons hd tl ih =>
    cases hd with
    | none =>
      have hm' : leastRow tl = some m := by simpa [leastRow, leastStep] using hm
      obtain ⟨hmem, hlb⟩ := ih hm'
      refine ⟨List.mem_cons_of_mem _ hmem, ?_⟩
      intro b hb
      rcases List.mem_cons.mp hb with h | h
      · cases h
      · exact hlb b h
    | some c =>
      have hm' : tl.foldl leastStep (some c) = some m := by
        simpa [leastRow, leastStep] using hm
      obtain ⟨m', hm'', hmem, hle, hlb⟩ := least_fold_some tl c
      rw [hm'] at hm''
      rcases Option.some.inj hm'' with rfl
      constructor
      · rcases hmem with h | h
        · simp [h]
        · exact List.mem_cons_of_mem _ h
      · intro b hb
        rcases List.mem_cons.mp hb with h | h
        · rcases Option.some.inj h with rfl
          exact hle
        · exact hlb b h

lemma first_attained_index {α : Type} [LinearOrder α]
    (args : List (Option α)) (m : α) (hmem : some m ∈ args)
    (hub : ∀ b, some b ∈ args → b ≤ m) :
    ∃ i : Nat, args[i]? = some (some m) ∧
      ∀ j < i, ∀ b, args[j]? = some (some b) → b < m := by
  have hex : ∃ i : Nat, args[i]? = some (some m) := by
    obtain ⟨i, hi⟩ := List.get_of_mem hmem
    exact ⟨i.1, by rw [List.getElem?_eq_getElem i.2]; simp [← hi, List.get_eq_getElem]⟩
  classical
  refine ⟨Nat.find hex, Nat.find_spec hex, ?_⟩
  intro j hj b hb
  have hne : ¬ args[j]? = some (some m) := Nat.find_min hex hj
  have hmemb : some b ∈ args := by
    have := List.getElem?_eq_some_iff.mp hb
    obtain ⟨hlt, hget⟩ := this
    exact hget ▸ List.getElem_mem hlt
  have hble : b ≤ m := hub b hmemb
  rcases lt_or_eq_of_le hble with h | h
  · exact h
  · exact absurd (by rw [hb, h]) hne

/-- C3: for every row, greatest (and symmetrically least) outputs the extreme
of the valid argument values under the resolved ordering, skipping invalid
entries; the output is invalid exactly when every argument is invalid; and the
returned extreme is attained at a first argument position before which every
valid value is strictly smaller (resp. greater), so ties keep the first
occurrence in argument order. -/
theorem greatest_least_spec {α : Type} [LinearOrder α] (args : List (Option α)) :
    (greatestRow args = none ↔ ∀ x ∈ args, x = none) ∧
    (leastRow args = none ↔ ∀ x ∈ args, x = none) ∧
    (∀ m, greatestRow args = some m →
      (some m ∈ args ∧ ∀ b, some b ∈ args → b ≤ m) ∧
      ∃ i : Nat, args[i]? = some (some m) ∧
        ∀ j < i, ∀ b, args[j]? = some (some b) → b < m) ∧
    (∀ m, leastRow args = some m →
      (some m ∈ args ∧ ∀ b, some b ∈ args → m ≤ b) ∧
      ∃ i : Nat, args[i]? = some (some m) ∧
        ∀ j < i, ∀ b, args[j]? = some (some b) → m < b) := by
  refine ⟨by simpa using greatest_fold_none_iff args none,
          by simpa using least_fold_none_iff args none, ?_, ?_⟩
  · intro m hm
    obtain ⟨hmem, hub⟩ := greatestRow_some_max args m hm
    exact ⟨⟨hmem, hub⟩, first_attained_index args m hmem hub⟩
  · intro m hm
    obtain ⟨hmem, hlb⟩ := leastRow_some_min args m hm
    have hdual : ∃ i : Nat, args[i]? = some (some m) ∧
        ∀ j < i, ∀ b, args[j]? = some (some b) → m < b := by
      have := first_attained_index (α := αᵒᵈ) args m hmem hlb
      exact this
    exact ⟨⟨hmem, hlb⟩, hdual⟩

/-- Modelled from the spec: the positional field names assigned by `struct`
(struct.rs is not part of the fragment): c0, c1, two dots, one per argument in
order. -/
def structFields (n : Nat) : List String :=
  (List.range n).map (fun i => "c" ++ toString i)

/-- Modelled from the spec: batch-time `struct` over argument columns.  Each
output row is valid and holds the tuple of the per-row member values; member
nullness is carried inside the tuple, never at the struct row level. -/
def structEval {α : Type} (cols : List (Col α)) (R : Nat) : List (Option (List (Option α))) :=
  (List.range R).map (fun r => some (rowAt cols r))

/-- Modelled from the spec: batch-time `named_struct` over its value argument
columns (named_struct.rs is not part of the fragment).  The explicit field
names are fixed at plan time; per batch, each output row is valid and holds
the tuple of the per-row member values, exactly as for `struct`. -/
def namedStructEval {α : Type} (names : List String) (cols : List (Col α))
    (R : Nat) : List (Option (List (Option α))) :=
  match names with
  | _ => (List.range R).map (fun r => some (rowAt cols r))

/-- Modelled from the spec: the row kernel of `get_field` (getfield.rs is not
part of the fragment), after plan-time resolution of the field name to the
member index: project the chosen member value through unchanged. -/
def getFieldRow {α : Type} (idx : Nat) (row : Option (List (Option α))) : Option α :=
  match row with
  | none => none
  | some vals => vals.getD idx none

/-- Batch-time `get_field`: resolve the field name against the field list of
the struct type, then project every row through `getFieldRow`. -/
def getFieldEval {α : Type} (fields : List String) (name : String)
    (col : List (Option (List (Option α)))) : Col α :=
  col.map (getFieldRow (fields.indexOf name))

lemma map_range_getD {α : Type} (l : List (Option α)) (R : Nat) (h : l.length = R) :
    (List.range R).map (fun r => l.getD r none) = l := by
  subst h
  apply List.ext_getElem
  · simp
  · intro i h1 h2
    simp only [List.getElem_map, List.getElem_range]
    rw [List.getD_eq_getElem l none h2]

/-- C7: construction/access round-trip.  For input columns a1, a2 of the
common row count, get_field(struct(a1, a2), "c1") is a2 unchanged: struct
assigns the positional names c0, c1 and get_field projects the chosen member
column through with the same values and validity at every row. -/
theorem struct_get_field_roundtrip {α : Type} (a1 a2 : Col α) (R : Nat)
    (h1 : a1.length = R) (h2 : a2.length = R) :
    getFieldEval (structFields 2) "c1" (structEval [a1, a2] R) = a2 := by
  have hidx : (structFields 2).indexOf "c1" = 1 := by decide
  unfold getFieldEval structEval rowAt
  rw [hidx, List.map_map]
  have : ∀ r : Nat,
      getFieldRow 1 (some ([a1, a2].map (fun c => c.getD r none))) = a2.getD r none := by
    intro r
    rfl
  calc (List.range R).map
        (getFieldRow 1 ∘ fun r => some ([a1, a2].map (fun c => c.getD r none)))
      = (List.range R).map (fun r => a2.getD r none) := by
        refine List.map_congr_left ?_
        intro r _
        exact this r
    _ = a2 := map_range_getD a2 R h2

/-- Witness for C7: the round-trip at a concrete two-row batch, with a null
member value passing through unchanged. -/
theorem struct_get_field_roundtrip_witness :
    getFieldEval (structFields 2) "c1"
      (structEval [[some (1 : Int), none], [none, some 2]] 2) = [none, some 2] :=
  struct_get_field_roundtrip [some (1 : Int), none] [none, some 2] 2 rfl rfl

/-- Modelled from the spec: one row of a union-typed column — a discriminant
tag naming the active variant, plus one stored value slot per declared
variant (only the slot matching the tag is logically valid). -/
structure UnionRow (α : Type) where
  tag : String
  slots : String → α

/-- Modelled from the spec: the row kernel of `union_extract`
(union_extract.rs is not part of the fragment): the stored value of the
requested variant where the discriminant tag matches, invalid elsewhere. -/
def unionExtractRow {α : Type} (v : String) (row : UnionRow α) : Option α :=
  if row.tag = v then some (row.slots v) else none

/-- Modelled from the spec: the row kernel of `union_tag` (union_tag.rs is not
part of the fragment): the name of the active variant, always valid. -/
def unionTagRow {α : Type} (row : UnionRow α) : Option String :=
  some row.tag

/-- Batch-time `union_extract` over a union column. -/
def unionExtractEval {α : Type} (v : String) (col : List (UnionRow α)) : Col α :=
  col.map (unionExtractRow v)

/-- Batch-time `union_tag` over a union column. -/
def unionTagEval {α : Type} (col : List (UnionRow α)) : Col String :=
  col.map unionTagRow

/-- C8: per row of a union column, union_extract with variant name v outputs
the stored value of v exactly at rows whose discriminant tag is v and is
invalid at every other row, while union_tag outputs the active variant name
and is valid at every row. -/
theorem union_extract_tag_spec {α : Type} (row : UnionRow α) (v : String) :
    (row.tag = v → unionExtractRow v row = some (row.slots v)) ∧
    (row.tag ≠ v → unionExtractRow v row = none) ∧
    unionTagRow row = some row.tag ∧
    (unionTagRow row).isSome = true := by
  refine ⟨?_, ?_, rfl, rfl⟩
  · intro h; simp [unionExtractRow, h]
  · intro h; simp [unionExtractRow, h]

/-- Witness for C8 at the concrete scenario of the spec: a row tagged b
holding the string hi gives union_tag b, union_extract at a null, and
union_extract at b the value hi. -/
theorem union_extract_tag_spec_witness :
    unionTagRow (UnionRow.mk "b" (fun v => if v = "b" then "hi" else "")) = some "b" ∧
    unionExtractRow "a" (UnionRow.mk "b" (fun v => if v = "b" then "hi" else "")) = none ∧
    unionExtractRow "b" (UnionRow.mk "b" (fun v => if v = "b" then "hi" else "")) = some "hi" := by
  refine ⟨(union_extract_tag_spec
      (UnionRow.mk "b" (fun v => if v = "b" then "hi" else "")) "b").2.2.1, ?_, ?_⟩
  · exact (union_extract_tag_spec
      (UnionRow.mk "b" (fun v => if v = "b" then "hi" else "")) "a").2.1 (by decide)
  · have := (union_extract_tag_spec
      (UnionRow.mk "b" (fun v => if v = "b" then "hi" else "")) "b").1 rfl
    simpa using this

/-- C2: batch-time evaluation is total for every function of the core.  Every
evaluator is a pure function of its argument columns (in this embedding it
cannot raise at all — errors are confined to plan-time resolution, which takes
only types), and on every row count R, including R = 0, it returns an output
column of exactly R rows: the variadic and fixed-arity selection, ordering and
construction evaluators take R directly, the structural accessors map a
column of R rows to a column of R rows, and on a zero-row batch each of them
returns the empty, correctly-typed column rather than failing. -/
theorem evaluate_total_and_zero_row {α : Type} [LinearOrder α]
    (cols : List (Col α)) (a b c : Col α) (R : Nat)
    (names : List String) (fields : List String) (name : String)
    (sc : List (Option (List (Option α)))) (uc : List (UnionRow α)) (v : String) :
    (coalesceEval cols R).length = R ∧
    (greatestEval cols R).length = R ∧
    (leastEval cols R).length = R ∧
    (nullifEval a b R).length = R ∧
    (nvlEval a b R).length = R ∧
    (nvl2Eval a b c R).length = R ∧
    (structEval cols R).length = R ∧
    (namedStructEval names cols R).length = R ∧
    (getFieldEval fields name sc).length = sc.length ∧
    (unionExtractEval v uc).length = uc.length ∧
    (unionTagEval uc).length = uc.length ∧
    coalesceEval cols 0 = [] ∧
    greatestEval cols 0 = [] ∧
    leastEval cols 0 = [] ∧
    nullifEval a b 0 = [] ∧
    nvlEval a b 0 = [] ∧
    nvl2Eval a b c 0 = [] ∧
    structEval cols 0 = [] ∧
    namedStructEval names cols 0 = [] ∧
    getFieldEval fields name ([] : List (Option (List (Option α)))) = [] ∧
    unionExtractEval v ([] : List (UnionRow α)) = [] ∧
    unionTagEval ([] : List (UnionRow α)) = [] := by
  refine ⟨?_, ?_, ?_, ?_, ?_, ?_, ?_, ?_, ?_, ?_, ?_,
    rfl, rfl, rfl, rfl, rfl, rfl, rfl, rfl, rfl, rfl, rfl⟩ <;>
    simp [coalesceEval, greatestEval, leastEval, nullifEval, nvlEval, nvl2Eval,
      structEval, namedStructEval, getFieldEval, unionExtractEval, unionTagEval,
      evalRows]

/-- The expression-builder layer of src/datafusion/functions/src/core/mod.rs:
a call expression is a function name applied to a list of argument
expressions; a literal argument is wrapped by the lit method of the Literal
trait, modelled by the `lit` constructor over an abstract scalar-value type V. -/
inductive Expr (V : Type) where
  | column : String → Expr V
  | lit : V → Expr V
  | call : String → List (Expr V) → Expr V

/-- Whether an expression node is a literal. -/
def isLiteral {V : Type} : Expr V → Bool
  | .lit _ => true
  | _ => false

namespace expr_fn

/-- Embedded from mod.rs lines 112 to 115: the get_field builder wraps its
second argument with .lit() and calls the get_field UDF on exactly the two
arguments. -/
def get_field {V : Type} (arg1 : Expr V) (arg2 : V) : Expr V :=
  Expr.call "get_field" [arg1, Expr.lit arg2]

/-- Embedded from mod.rs lines 117 to 120: the union_extract builder wraps its
second argument with .lit() and calls the union_extract UDF on exactly the two
arguments. -/
def union_extract {V : Type} (arg1 : Expr V) (arg2 : V) : Expr V :=
  Expr.call "union_extract" [arg1, Expr.lit arg2]

end expr_fn

/-- C9: every call built through the expr_fn builders get_field and
union_extract has exactly two arguments and its second argument is a literal
expression (the value wrapped by lit), so the plan-time precondition that the
field-name or variant-name argument be a literal holds by construction. -/
theorem builder_second_arg_literal {V : Type} (arg1 : Expr V) (arg2 : V) :
    (∃ args : List (Expr V), expr_fn.get_field arg1 arg2 = Expr.call "get_field" args ∧
      args.length = 2 ∧ args[1]? = some (Expr.lit arg2) ∧
      ∀ e ∈ args.drop 1, isLiteral e = true) ∧
    (∃ args : List (Expr V), expr_fn.union_extract arg1 arg2 = Expr.call "union_extract" args ∧
      args.length = 2 ∧ args[1]? = some (Expr.lit arg2) ∧
      ∀ e ∈ args.drop 1, isLiteral e = true) :=
  ⟨⟨[arg1, Expr.lit arg2], rfl, rfl, rfl, by simp [isLiteral]⟩,
   ⟨[arg1, Expr.lit arg2], rfl, rfl, rfl, by simp [isLiteral]⟩⟩

/-- Embedded from mod.rs lines 124 to 149: the names of the scalar UDFs the
functions() vector returns, in source order. -/
def functions : List String :=
  ["nullif", "arrow_cast", "nvl", "nvl2", "overlay", "arrow_typeof",
   "named_struct", "get_field", "coalesce", "greatest", "least",
   "union_extract", "union_tag", "version", "struct"]

/-- C10: functions() deterministically returns the same list of exactly 15
scalar UDFs, each appearing exactly once, and the public surface includes
arrow_cast, arrow_typeof, overlay and version beyond the semantic core. -/
theorem functions_registry_surface :
    functions.length = 15 ∧ functions.Nodup ∧
    "nullif" ∈ functions ∧ "arrow_cast" ∈ functions ∧ "nvl" ∈ functions ∧
    "nvl2" ∈ functions ∧ "overlay" ∈ functions ∧ "arrow_typeof" ∈ functions ∧
    "named_struct" ∈ functions ∧ "get_field" ∈ functions ∧
    "coalesce" ∈ functions ∧ "greatest" ∈ functions ∧ "least" ∈ functions ∧
    "union_extract" ∈ functions ∧ "union_tag" ∈ functions ∧
    "version" ∈ functions ∧ "struct" ∈ functions := by
  refine ⟨rfl, ?_, ?_⟩
  · decide
  · repeat constructor <;> decide

end DataFusionCore
